import Mathlib

/-!
Verification of the `delete_directory` routine of `pyazure/storage/blob.py`
(class `BlobStorageHelper`), the "HierarchicalDeleter" of the specification.

The blob store is modelled as a finite list of blob names kept in listing
(lexicographic) order; the Azure container is the only state the routine
touches.  `container_client.list_blobs(name_starts_with=p)` is a raw
string-prefix filter over that list, and `container_client.delete_blob(k)`
removes the key `k` — or raises, which the routine always catches; the set of
keys whose deletion raises is modelled by a function `fails : String → Bool`.
`print` calls made under `verbose` are modelled as a log of `LogEvent`s.
The Python recursion `self.delete_directory(dir_prefix)` is not structurally
decreasing (it re-invokes on the unchanged prefix), so the model takes a fuel
argument and returns `none` when the fuel runs out: `none` corresponds to a
run of the Python code that has not finished within that recursion depth.
-/

namespace PyAzure

/-- One event per `print` statement of `delete_directory`, in source order:
the sweep header, the skip notice, the per-entry success and failure lines,
the marker-check header, the marker success and failure lines, and the
for-else "no marker" line. -/
inductive LogEvent where
  | deletingAll (dirSlash : String)
  | skippingNonEmptyDir (name : String)
  | deleted (name : String)
  | couldNotDelete (name : String)
  | checkingMarker (path : String)
  | deletedMarker (name : String)
  | couldNotDeleteMarker (name : String)
  | noMarkerFound (path : String)
  deriving Repr, DecidableEq

/-- Python `p.startswith(k)` reading of Azure `name_starts_with`: `p` is a raw
string prefix of `k`. -/
def strStarts (p k : String) : Bool := p.data.isPrefixOf k.data

/-- `container_client.list_blobs(name_starts_with=p)`: every stored key whose
name starts with the raw string `p`, in store order. -/
def listBlobs (store : List String) (p : String) : List String :=
  store.filter (fun k => strStarts p k)

/-- Python `s.endswith('/')`. -/
def endsSlash (s : String) : Bool := s.data.getLast? == some '/'

/-- Python `s.rstrip('/')`: drop every trailing `'/'`. -/
def rstripSlash (s : String) : String :=
  ⟨(s.data.reverse.dropWhile (fun c => c == '/')).reverse⟩

/-- The `dir_prefix` computed by the normalization block of `delete_directory`:
`directory_path` itself when it already ends with `'/'`, otherwise
`directory_path + '/'`. -/
def normSlash (p : String) : String := if endsSlash p then p else p ++ "/"

/-- The `dir_name_no_slash` computed by the normalization block:
`directory_path.rstrip('/')` when the path ends with `'/'`, otherwise
`directory_path` unchanged. -/
def bareOf (p : String) : String := if endsSlash p then rstripSlash p else p

/-- Number of trailing `'/'` characters of `s` (used to state claim C8). -/
def trailSlashes (s : String) : Nat :=
  (s.data.reverse.takeWhile (fun c => c == '/')).length

/-- Result of a phase of `delete_directory` (and of the whole routine): the
remaining store, the log lines printed, and how many `delete_blob` calls were
issued (successful or not). -/
structure DDResult where
  store : List String
  log : List LogEvent
  calls : Nat
  deriving Repr, DecidableEq

/-- The sweep loop of `delete_directory`: iterate over the snapshot `names` of
`list_blobs(name_starts_with=dir_prefix)`; an entry whose own-prefix re-listing
(against the current store) has more than one element is skipped as a
non-empty directory, otherwise `delete_blob` is issued on it, with any
exception caught.  The log is what the loop would print under `verbose`. -/
def sweep (fails : String → Bool) (store : List String) : List String → DDResult
  | [] => ⟨store, [], 0⟩
  | n :: rest =>
    if (listBlobs store n).length > 1 then
      let r := sweep fails store rest
      ⟨r.store, .skippingNonEmptyDir n :: r.log, r.calls⟩
    else
      if fails n then
        let r := sweep fails store rest
        ⟨r.store, .couldNotDelete n :: r.log, r.calls + 1⟩
      else
        let r := sweep fails (store.filter (fun x => x != n)) rest
        ⟨r.store, .deleted n :: r.log, r.calls + 1⟩

/-- The marker block of `delete_directory`: list the candidates starting with
`dir_name_no_slash`, take the first one whose name with trailing slashes
stripped equals `dir_name_no_slash`, issue `delete_blob` on it (exception
caught) and break; the for-else reports when no candidate matched.  The log is
what the block would print under `verbose`. -/
def markerPhase (fails : String → Bool) (store : List String) (bare path : String) :
    DDResult :=
  match (listBlobs store bare).find? (fun k => rstripSlash k == bare) with
  | some k =>
    if fails k then ⟨store, [.couldNotDeleteMarker k], 1⟩
    else ⟨store.filter (fun x => x != k), [.deletedMarker k], 1⟩
  | none => ⟨store, [.noMarkerFound path], 0⟩

/-- One invocation body of `delete_directory`, parametric in the function
`recur` used for the recursive call (which the Python makes with `verbose`
omitted, hence `False`, and on the unchanged `dir_prefix`): normalize the
path, sweep, recurse when more than one key is still listed under the prefix,
then run the marker block on whatever the recursion left. -/
def ddStep (fails : String → Bool) (verbose : Bool)
    (recur : List String → String → Option DDResult)
    (store : List String) (path : String) : Option DDResult :=
  let dirSlash := normSlash path
  let bare := bareOf path
  let s1 := sweep fails store (listBlobs store dirSlash)
  let sweepLog := if verbose then LogEvent.deletingAll dirSlash :: s1.log else []
  let afterRec : Option DDResult :=
    if (listBlobs s1.store dirSlash).length > 1 then
      (recur s1.store dirSlash).map fun r2 =>
        ⟨r2.store, sweepLog ++ r2.log, s1.calls + r2.calls⟩
    else some ⟨s1.store, sweepLog, s1.calls⟩
  afterRec.map fun r =>
    let m := markerPhase fails r.store bare path
    ⟨m.store,
      r.log ++ (if verbose then LogEvent.checkingMarker path :: m.log else []),
      r.calls + m.calls⟩

/-- `BlobStorageHelper.delete_directory(directory_path, verbose)` with an
explicit recursion-depth budget: `none` means the run did not finish within
`fuel` nested invocations.  The recursive call passes `verbose := false`
because the Python source omits the argument. -/
def deleteDirectory (fails : String → Bool) :
    Bool → Nat → List String → String → Option DDResult
  | _, 0, _, _ => none
  | verbose, fuel + 1, store, path =>
    ddStep fails verbose (deleteDirectory fails false fuel) store path

/-- Every delete succeeds (the precondition of several spec claims). -/
def noFail : String → Bool := fun _ => false

/-- Every delete raises (models a persistent transient-error regime). -/
def allFail : String → Bool := fun _ => true

/-! ### String-level facts about the path normalization helpers -/

theorem strStarts_iff (p k : String) : strStarts p k = true ↔ p.data <+: k.data := by
  simp [strStarts, List.isPrefixOf_iff_prefix]

theorem strStarts_refl (p : String) : strStarts p p = true :=
  (strStarts_iff p p).mpr (List.prefix_refl _)

theorem strStarts_trans {a b c : String} (h1 : strStarts a b = true)
    (h2 : strStarts b c = true) : strStarts a c = true :=
  (strStarts_iff a c).mpr (((strStarts_iff a b).mp h1).trans ((strStarts_iff b c).mp h2))

theorem endsSlash_append_slash (s : String) : endsSlash (s ++ "/") = true := by
  have h : (s ++ "/").data = s.data ++ ['/'] := by rw [String.data_append]
  simp [endsSlash, h, List.getLast?_concat]

theorem rstripSlash_append_slash (s : String) : rstripSlash (s ++ "/") = rstripSlash s := by
  apply String.ext
  show ((s ++ "/").data.reverse.dropWhile (fun c => c == '/')).reverse = _
  have h : (s ++ "/").data = s.data ++ ['/'] := by rw [String.data_append]
  rw [h, List.reverse_append]
  simp [List.dropWhile_cons]
  rfl

theorem rstripSlash_of_not_endsSlash {s : String} (h : endsSlash s = false) :
    rstripSlash s = s := by
  apply String.ext
  show (s.data.reverse.dropWhile (fun c => c == '/')).reverse = s.data
  have hdw : s.data.reverse.dropWhile (fun c => c == '/') = s.data.reverse := by
    cases hrev : s.data.reverse with
    | nil => rfl
    | cons c t =>
      have h1 : s.data.getLast? = some c := by
        rw [← List.head?_reverse, hrev]; rfl
      have hc : (c == '/') = false := by
        unfold endsSlash at h
        rw [h1] at h
        simpa using h
      rw [List.dropWhile_cons, hc]
      simp
  rw [hdw, List.reverse_reverse]

theorem endsSlash_normSlash (p : String) : endsSlash (normSlash p) = true := by
  unfold normSlash
  split
  · assumption
  · exact endsSlash_append_slash p

theorem normSlash_idem (p : String) : normSlash (normSlash p) = normSlash p := by
  show (if endsSlash (normSlash p) then normSlash p else normSlash p ++ "/") = normSlash p
  rw [endsSlash_normSlash]
  rfl

theorem bareOf_eq (p : String) : bareOf p = rstripSlash p := by
  unfold bareOf
  split
  · rfl
  · next h => exact (rstripSlash_of_not_endsSlash (by simpa using h)).symm

theorem rstripSlash_normSlash (p : String) : rstripSlash (normSlash p) = rstripSlash p := by
  unfold normSlash
  split
  · rfl
  · exact rstripSlash_append_slash p

theorem rstrip_decomp (s : String) :
    s.data = (rstripSlash s).data ++ List.replicate (trailSlashes s) '/' := by
  have hsplit := List.takeWhile_append_dropWhile (p := fun c => c == '/') (l := s.data.reverse)
  have hmem : ∀ c ∈ s.data.reverse.takeWhile (fun c => c == '/'), c = '/' := by
    intro c hc
    simpa using List.mem_takeWhile_imp hc
  have hrep : s.data.reverse.takeWhile (fun c => c == '/')
      = List.replicate (trailSlashes s) '/' := List.eq_replicate_of_mem hmem
  calc s.data = s.data.reverse.reverse := (List.reverse_reverse _).symm
    _ = (s.data.reverse.takeWhile (fun c => c == '/')
          ++ s.data.reverse.dropWhile (fun c => c == '/')).reverse := by rw [hsplit]
    _ = (s.data.reverse.dropWhile (fun c => c == '/')).reverse
          ++ (s.data.reverse.takeWhile (fun c => c == '/')).reverse := by
        rw [List.reverse_append]
    _ = (rstripSlash s).data ++ List.replicate (trailSlashes s) '/' := by
        rw [hrep, List.reverse_replicate]; rfl

theorem one_le_trailSlashes {p : String} (h : endsSlash p = true) : 1 ≤ trailSlashes p := by
  unfold endsSlash at h
  unfold trailSlashes
  cases hrev : p.data.reverse with
  | nil =>
    have h1 : p.data.getLast? = none := by rw [← List.head?_reverse, hrev]; rfl
    rw [h1] at h
    simp at h
  | cons c t =>
    have h1 : p.data.getLast? = some c := by rw [← List.head?_reverse, hrev]; rfl
    have hc : c = '/' := by rw [h1] at h; simpa using h
    subst hc
    rw [List.takeWhile_cons]
    simp

theorem eq_or_slash_of_rstrip_eq {k b : String} (h : rstripSlash k = b) :
    k = b ∨ strStarts (b ++ "/") k = true := by
  have hd := rstrip_decomp k
  rw [h] at hd
  cases hn : trailSlashes k with
  | zero =>
    left
    apply String.ext
    rw [hd, hn]
    simp
  | succ m =>
    right
    rw [strStarts_iff, String.data_append, hd, hn, List.replicate_succ]
    exact ⟨List.replicate m '/', by simp⟩

theorem strStarts_one_norm (p : String) :
    strStarts (rstripSlash p ++ "/") (normSlash p) = true := by
  unfold normSlash
  split
  · next h =>
    rw [strStarts_iff, String.data_append]
    have hd := rstrip_decomp p
    obtain ⟨m, hm⟩ : ∃ m, trailSlashes p = m + 1 := by
      have := one_le_trailSlashes h
      exact ⟨trailSlashes p - 1, by omega⟩
    rw [hd, hm, List.replicate_succ]
    exact ⟨List.replicate m '/', by simp⟩
  · next h =>
    rw [rstripSlash_of_not_endsSlash (by simpa using h)]
    exact strStarts_refl _

/-! ### Facts about the sweep loop and the marker block -/

theorem sweep_store_sublist (fails : String → Bool) :
    ∀ (names store : List String), List.Sublist (sweep fails store names).store store
  | [], _ => List.Sublist.refl _
  | n :: rest, store => by
    simp only [sweep]
    split
    · exact sweep_store_sublist fails rest store
    · split
      · exact sweep_store_sublist fails rest store
      · exact (sweep_store_sublist fails rest _).trans (List.filter_sublist _)

theorem sweep_keeps (fails : String → Bool) {k : String} :
    ∀ (names store : List String), k ∈ store → (∀ n ∈ names, k ≠ n) →
      k ∈ (sweep fails store names).store
  | [], _, hk, _ => hk
  | n :: rest, store, hk, hne => by
    simp only [sweep]
    split
    · exact sweep_keeps fails rest store hk fun m hm => hne m (List.mem_cons_of_mem _ hm)
    · split
      · exact sweep_keeps fails rest store hk fun m hm => hne m (List.mem_cons_of_mem _ hm)
      · refine sweep_keeps fails rest _ ?_ fun m hm => hne m (List.mem_cons_of_mem _ hm)
        refine List.mem_filter.mpr ⟨hk, ?_⟩
        simpa using hne n (List.mem_cons_self _ _)

theorem sweep_removes_top {m : String} (fails : String → Bool) :
    ∀ (names store : List String), store.Nodup → m ∈ names → m ∈ store →
      fails m = false →
      (∀ k ∈ store, strStarts m k = true → k = m) →
      m ∉ (sweep fails store names).store
  | [], _, _, hm, _, _, _ => absurd hm (List.not_mem_nil m)
  | n :: rest, store, hnd, hmem, hms, hfm, hmax => by
    by_cases hmn : m = n
    · subst hmn
      have hlen : (listBlobs store m).length = 1 := by
        unfold listBlobs
        rw [← List.countP_eq_length_filter]
        have hcong : ∀ k ∈ store, (strStarts m k ↔ (k == m)) := by
          intro k hk
          by_cases hkm : k = m
          · subst hkm; simp [strStarts_refl]
          · have h1 : strStarts m k = false := by
              cases hsm : strStarts m k
              · rfl
              · exact absurd (hmax k hk hsm) hkm
            simp [h1, hkm]
        rw [List.countP_congr hcong, ← List.count_eq_countP]
        exact List.count_eq_one_of_mem hnd hms
      simp only [sweep, hlen]
      rw [if_neg (by omega), if_neg (by simp [hfm])]
      intro hin
      have hin2 : m ∈ store.filter (fun x => x != m) :=
        (sweep_store_sublist fails rest _).subset hin
      simp at hin2
    · have hmem2 : m ∈ rest := by
        rcases List.mem_cons.mp hmem with h | h
        · exact absurd h hmn
        · exact h
      simp only [sweep]
      split
      · exact sweep_removes_top fails rest store hnd hmem2 hms hfm hmax
      · split
        · exact sweep_removes_top fails rest store hnd hmem2 hms hfm hmax
        · refine sweep_removes_top fails rest _ (hnd.filter _) hmem2 ?_ hfm ?_
          · exact List.mem_filter.mpr ⟨hms, by simpa using hmn⟩
          · intro k hk hs
            exact hmax k (List.mem_filter.mp hk).1 hs

theorem exists_max_len :
    ∀ (l : List String), l ≠ [] → ∃ m ∈ l, ∀ k ∈ l, k.data.length ≤ m.data.length
  | [], h => absurd rfl h
  | [x], _ => ⟨x, by simp, by simp⟩
  | x :: y :: t, _ => by
    obtain ⟨m, hm, hmax⟩ := exists_max_len (y :: t) (by simp)
    by_cases hxm : x.data.length ≤ m.data.length
    · refine ⟨m, List.mem_cons_of_mem _ hm, ?_⟩
      intro k hk
      rcases List.mem_cons.mp hk with rfl | hk2
      · exact hxm
      · exact hmax k hk2
    · refine ⟨x, List.mem_cons_self _ _, ?_⟩
      intro k hk
      rcases List.mem_cons.mp hk with rfl | hk2
      · exact le_refl _
      · exact (hmax k hk2).trans (le_of_not_le hxm)

theorem sweep_decrease (store : List String) (d : String) (hnd : store.Nodup)
    (hne : (listBlobs store d).length ≠ 0) :
    (listBlobs (sweep noFail store (listBlobs store d)).store d).length
      < (listBlobs store d).length := by
  have hL : listBlobs store d ≠ [] := by
    intro hnil
    rw [hnil] at hne
    exact hne rfl
  obtain ⟨m, hmL, hmax⟩ := exists_max_len _ hL
  have hm_store : m ∈ store := (List.mem_filter.mp hmL).1
  have hmaxstore : ∀ k ∈ store, strStarts m k = true → k = m := by
    intro k hk hs
    have hdm : strStarts d m = true := (List.mem_filter.mp hmL).2
    have hdk : strStarts d k = true := strStarts_trans hdm hs
    have hkL : k ∈ listBlobs store d := List.mem_filter.mpr ⟨hk, hdk⟩
    have h1 : k.data.length ≤ m.data.length := hmax k hkL
    have h2 : m.data <+: k.data := (strStarts_iff _ _).mp hs
    exact (String.ext (h2.sublist.eq_of_length
      (le_antisymm h2.length_le h1))).symm
  have hnot := sweep_removes_top noFail (listBlobs store d) store hnd hmL hm_store rfl hmaxstore
  have hsubL : List.Sublist (listBlobs (sweep noFail store (listBlobs store d)).store d)
      (listBlobs store d) :=
    (sweep_store_sublist noFail (listBlobs store d) store).filter _
  refine Nat.lt_of_le_of_ne hsubL.length_le ?_
  intro heq
  have heq2 := hsubL.eq_of_length heq
  have hmem : m ∈ listBlobs (sweep noFail store (listBlobs store d)).store d := by
    rw [heq2]; exact hmL
  exact hnot (List.mem_filter.mp hmem).1

theorem markerPhase_sublist (fails : String → Bool) (store : List String)
    (bare path : String) : List.Sublist (markerPhase fails store bare path).store store := by
  unfold markerPhase
  split
  · split
    · exact List.Sublist.refl _
    · exact List.filter_sublist _
  · exact List.Sublist.refl _

theorem find?_eq_some_unique {p : String → Bool} {a : String} :
    ∀ {l : List String}, a ∈ l → p a = true → (∀ x ∈ l, p x = true → x = a) →
      l.find? p = some a
  | [], h, _, _ => absurd h (List.not_mem_nil a)
  | b :: t, h, hpa, huniq => by
    by_cases hpb : p b = true
    · rw [List.find?_cons_of_pos _ hpb]
      rw [huniq b (List.mem_cons_self _ _) hpb]
    · rw [List.find?_cons_of_neg _ (by simpa using hpb)]
      have hat : a ∈ t := by
        rcases List.mem_cons.mp h with rfl | h2
        · exact absurd hpa hpb
        · exact h2
      exact find?_eq_some_unique hat hpa fun x hx hpx =>
        huniq x (List.mem_cons_of_mem _ hx) hpx

/-! ### Global invariants of `deleteDirectory` -/

/-- Whenever a `delete_directory` run finishes, at most one key is still listed
under the normalized slash prefix: the sweep-or-recurse stage ends in a state
where the recursion guard `len(...) > 1` is false, and the marker block only
removes keys. -/
theorem listing_after_le_one (fails : String → Bool) :
    ∀ (v : Bool) (fuel : Nat) (store : List String) (path : String) (r : DDResult),
      deleteDirectory fails v fuel store path = some r →
      (listBlobs r.store (normSlash path)).length ≤ 1
  | _, 0, _, _, _, h => by simp [deleteDirectory] at h
  | v, fuel + 1, store, path, r, h => by
    simp only [deleteDirectory, ddStep] at h
    rw [Option.map_eq_some'] at h
    obtain ⟨r1, h1, h2⟩ := h
    subst h2
    have hsubL : List.Sublist
        (listBlobs (markerPhase fails r1.store (bareOf path) path).store (normSlash path))
        (listBlobs r1.store (normSlash path)) :=
      (markerPhase_sublist fails r1.store (bareOf path) path).filter _
    refine le_trans hsubL.length_le ?_
    by_cases hg : (listBlobs (sweep fails store (listBlobs store (normSlash path))).store
        (normSlash path)).length > 1
    · rw [if_pos hg, Option.map_eq_some'] at h1
      obtain ⟨r2, hrec, hr2⟩ := h1
      have hle := listing_after_le_one fails false fuel _ (normSlash path) r2 hrec
      rw [normSlash_idem] at hle
      subst hr2
      exact hle
    · rw [if_neg hg] at h1
      cases h1
      exact Nat.not_lt.mp hg

/-- A pass invoked with `verbose=False` prints nothing; since the recursive
call always passes `verbose=False`, this covers every recursive pass. -/
theorem silent_of_not_verbose (fails : String → Bool) :
    ∀ (fuel : Nat) (store : List String) (path : String) (r : DDResult),
      deleteDirectory fails false fuel store path = some r → r.log = []
  | 0, _, _, _, h => by simp [deleteDirectory] at h
  | fuel + 1, store, path, r, h => by
    simp only [deleteDirectory, ddStep] at h
    rw [Option.map_eq_some'] at h
    obtain ⟨r1, h1, h2⟩ := h
    subst h2
    show r1.log ++ (if false then _ else []) = []
    by_cases hg : (listBlobs (sweep fails store (listBlobs store (normSlash path))).store
        (normSlash path)).length > 1
    · rw [if_pos hg, Option.map_eq_some'] at h1
      obtain ⟨r2, hrec, hr2⟩ := h1
      have hlog2 := silent_of_not_verbose fails fuel _ _ r2 hrec
      subst hr2
      show (if false then _ else []) ++ r2.log ++ (if false then _ else []) = []
      simp [hlog2]
    · rw [if_neg hg] at h1
      cases h1
      simp

/-- When every delete raises, the sweep leaves the store untouched. -/
theorem sweep_allFail_store :
    ∀ (names store : List String), (sweep allFail store names).store = store
  | [], _ => rfl
  | n :: rest, store => by
    simp only [sweep]
    split
    · exact sweep_allFail_store rest store
    · simp only [allFail, if_true]
      exact sweep_allFail_store rest store

/-- When every delete raises and more than one key is listed under the prefix,
`delete_directory` recurses forever: no recursion budget makes it return. -/
theorem allFail_none :
    ∀ (fuel : Nat) (v : Bool) (store : List String) (path : String),
      1 < (listBlobs store (normSlash path)).length →
      deleteDirectory allFail v fuel store path = none
  | 0, _, _, _, _ => rfl
  | fuel + 1, v, store, path, h => by
    simp only [deleteDirectory, ddStep, sweep_allFail_store]
    rw [if_pos h]
    rw [allFail_none fuel false store (normSlash path) (by rwa [normSlash_idem])]
    rfl

/-- Auxiliary strong-induction step for termination: the number of keys listed
under the prefix strictly decreases across a sweep (every delete succeeding,
store duplicate-free), so listing-count-many recursion levels suffice. -/
theorem terminates_aux :
    ∀ (fuel : Nat) (v : Bool) (store : List String) (path : String),
      store.Nodup →
      (listBlobs store (normSlash path)).length < fuel →
      ∃ r, deleteDirectory noFail v fuel store path = some r
  | 0, _, _, _, _, h => absurd h (by omega)
  | fuel + 1, v, store, path, hnd, hlt => by
    simp only [deleteDirectory, ddStep]
    by_cases hg : (listBlobs (sweep noFail store (listBlobs store (normSlash path))).store
        (normSlash path)).length > 1
    · rw [if_pos hg]
      have hle : (listBlobs (sweep noFail store (listBlobs store (normSlash path))).store
          (normSlash path)).length ≤ (listBlobs store (normSlash path)).length :=
        ((sweep_store_sublist noFail (listBlobs store (normSlash path)) store).filter
          _).length_le
      have hdec := sweep_decrease store (normSlash path) hnd (by omega)
      have hnd2 : (sweep noFail store (listBlobs store (normSlash path))).store.Nodup :=
        hnd.sublist (sweep_store_sublist noFail (listBlobs store (normSlash path)) store)
      obtain ⟨r2, hr2⟩ := terminates_aux fuel false
        (sweep noFail store (listBlobs store (normSlash path))).store (normSlash path)
        hnd2 (by rw [normSlash_idem]; omega)
      rw [hr2]
      exact ⟨_, rfl⟩
    · rw [if_neg hg]
      exact ⟨_, rfl⟩

/-- Frame lemma: a key that neither lies under the separator-bounded prefix
`rstripSlash path ++ "/"` nor equals the stripped path survives every phase of
`delete_directory`, whatever the failure regime and the verbosity. -/
theorem frame_preserved (fails : String → Bool) :
    ∀ (v : Bool) (fuel : Nat) (store : List String) (path : String) (r : DDResult)
      (k : String),
      deleteDirectory fails v fuel store path = some r →
      k ∈ store →
      strStarts (rstripSlash path ++ "/") k = false →
      k ≠ rstripSlash path →
      k ∈ r.store
  | _, 0, _, _, _, _, h, _, _, _ => by simp [deleteDirectory] at h
  | v, fuel + 1, store, path, r, k, h, hk, hout, hneq => by
    simp only [deleteDirectory, ddStep] at h
    rw [Option.map_eq_some'] at h
    obtain ⟨r1, h1, h2⟩ := h
    subst h2
    have hknames : ∀ n ∈ listBlobs store (normSlash path), k ≠ n := by
      intro n hn he
      subst he
      have hpre := (List.mem_filter.mp hn).2
      have htr := strStarts_trans (strStarts_one_norm path) hpre
      rw [hout] at htr
      cases htr
    have hks1 : k ∈ (sweep fails store (listBlobs store (normSlash path))).store :=
      sweep_keeps fails (listBlobs store (normSlash path)) store hk hknames
    have hkr1 : k ∈ r1.store := by
      by_cases hg : (listBlobs (sweep fails store (listBlobs store (normSlash path))).store
          (normSlash path)).length > 1
      · rw [if_pos hg, Option.map_eq_some'] at h1
        obtain ⟨r2, hrec, hr2⟩ := h1
        have hk2 := frame_preserved fails false fuel _ (normSlash path) r2 k hrec hks1
          (by rwa [rstripSlash_normSlash]) (by rwa [rstripSlash_normSlash])
        subst hr2
        exact hk2
      · rw [if_neg hg] at h1
        cases h1
        exact hks1
    show k ∈ (markerPhase fails r1.store (bareOf path) path).store
    unfold markerPhase
    cases hfind : (listBlobs r1.store (bareOf path)).find?
        (fun x => rstripSlash x == bareOf path) with
    | none => exact hkr1
    | some c =>
      have hc : rstripSlash c = bareOf path := by
        have := List.find?_some hfind
        simpa using this
      have hkc : k ≠ c := by
        intro he
        subst he
        rw [bareOf_eq] at hc
        rcases eq_or_slash_of_rstrip_eq hc with he2 | he2
        · exact hneq he2
        · rw [hout] at he2; cases he2
      dsimp only
      by_cases hf : fails c = true
      · rw [if_pos hf]
        exact hkr1
      · rw [if_neg hf]
        exact List.mem_filter.mpr ⟨hkr1, by simpa using hkc⟩

/-! ### The claims -/

/-- Claim C1, counterexample: on the store holding exactly the keys a/b (a nested
directory marker, and a raw string prefix of the deeper key) and a/b/c,
`delete_directory("a")` with every delete succeeding finishes, yet listing the
slash-terminated prefix "a/" afterwards still returns ["a/b"], not the empty
sequence claimed. -/
theorem C1_counterexample :
    (deleteDirectory noFail false 10 ["a/b", "a/b/c"] "a").map
      (fun r => listBlobs r.store (normSlash "a")) = some ["a/b"] := by decide

/-- Claim C1, amended: after any terminating `delete_directory(p)` run (any failure
regime, any verbosity), at most one key remains listed under the normalized
slash prefix of `p`; emptiness is not guaranteed (see the counterexample). -/
theorem C1_amended_at_most_one (fails : String → Bool) (v : Bool) (fuel : Nat)
    (store : List String) (path : String) (r : DDResult)
    (h : deleteDirectory fails v fuel store path = some r) :
    (listBlobs r.store (normSlash path)).length ≤ 1 :=
  listing_after_le_one fails v fuel store path r h

/-- Claim C1, witness for the amended theorem at a concrete input: deleting "a" in
the empty store terminates and the bound holds there. -/
theorem C1_witness :
    deleteDirectory noFail false 2 [] "a" = some ⟨[], [], 0⟩ ∧
      (listBlobs (DDResult.mk [] [] 0).store (normSlash "a")).length ≤ 1 :=
  ⟨by decide, C1_amended_at_most_one noFail false 2 [] "a" ⟨[], [], 0⟩ (by decide)⟩

/-- Claim C2, counterexample: on the store `{"a", "a/b", "a/c", "a/c/d"}`,
`delete_directory("a")` (all deletes succeeding, ample fuel) finishes with the
key "a/c" still in the store, so it does not remove all four keys: after the
single sweep pass only "a/c" remains under "a/", the recursion guard
`len > 1` does not fire, and the marker phase removes "a" only. -/
theorem C2_counterexample :
    (deleteDirectory noFail false 10 ["a", "a/b", "a/c", "a/c/d"] "a").map
      DDResult.store = some ["a/c"] := by decide

/-- Claim C2, amended: on `{"a", "a/b", "a/c", "a/c/d"}`, `delete_directory("a")`
removes "a/b", "a/c/d" (sweep) and "a" (marker phase) in a single
non-recursive pass with three delete calls, leaving exactly the nested
directory marker "a/c". -/
theorem C2_amended_run :
    deleteDirectory noFail true 10 ["a", "a/b", "a/c", "a/c/d"] "a"
      = some ⟨["a/c"],
          [.deletingAll "a/", .deleted "a/b", .skippingNonEmptyDir "a/c",
           .deleted "a/c/d", .checkingMarker "a", .deletedMarker "a"],
          3⟩ := by decide

/-- Claim C3: for every duplicate-free finite store and every directory path, when
every issued delete succeeds (`noFail`) the routine terminates; a recursion
budget of one more than the number of keys initially listed under the
normalized prefix always suffices, because each sweep pass strictly shrinks
that listing. -/
theorem C3_terminates (v : Bool) (store : List String) (path : String)
    (hnd : store.Nodup) :
    ∃ r, deleteDirectory noFail v
        ((listBlobs store (normSlash path)).length + 1) store path = some r :=
  terminates_aux _ v store path hnd (by omega)

/-- Claim C3, witness: the termination theorem applied to the nested four-key store. -/
theorem C3_witness :
    ∃ r, deleteDirectory noFail false
        ((listBlobs ["a", "a/b", "a/c", "a/c/d"] (normSlash "a")).length + 1)
        ["a", "a/b", "a/c", "a/c/d"] "a" = some r :=
  C3_terminates false ["a", "a/b", "a/c", "a/c/d"] "a" (by decide)

/-- Claim C4, counterexample to "the routine always returns normally": when every
delete raises (each failure caught and logged, exactly as the code does) on
the store `{"a/b", "a/c"}`, the sweep removes nothing, the guard `len > 1`
stays true, and `delete_directory("a")` re-invokes itself on the unchanged
prefix forever — no recursion budget makes it return. -/
theorem C4_counterexample :
    ¬ ∃ (fuel : Nat) (r : DDResult),
        deleteDirectory allFail false fuel ["a/b", "a/c"] "a" = some r := by
  rintro ⟨fuel, r, h⟩
  rw [allFail_none fuel false ["a/b", "a/c"] "a" (by decide)] at h
  cases h

/-- Claim C4, amended: each per-entry delete failure is caught in isolation and the
sweep continues — in the concrete scenario of the spec (deleting "a/b" raises, "a/c"
succeeds) the call completes normally, both deletes were attempted, and "a/c"
is absent from a subsequent listing; but the routine only returns normally
when it terminates, which persistent failures can prevent. -/
theorem C4_amended_isolation :
    deleteDirectory (fun k => k == "a/b") false 3 ["a/b", "a/c"] "a"
      = some ⟨["a/b"], [], 2⟩ ∧ listBlobs ["a/b"] "a/c" = [] := by decide

/-- Claim C5: the routine never deletes a key outside the directory: any
key that neither starts with the separator-bounded prefix (the stripped path
followed by exactly one "/") nor equals the stripped path is still present
when the call returns, for every store, failure regime, verbosity and fuel. -/
theorem C5_frame (fails : String → Bool) (v : Bool) (fuel : Nat)
    (store : List String) (path : String) (r : DDResult) (k : String)
    (h : deleteDirectory fails v fuel store path = some r) (hk : k ∈ store)
    (hout : strStarts (rstripSlash path ++ "/") k = false)
    (hneq : k ≠ rstripSlash path) : k ∈ r.store :=
  frame_preserved fails v fuel store path r k h hk hout hneq

/-- Claim C5, witness: deleting directory "a" on `{"ab", "a/b"}` removes "a/b" but
the frame theorem keeps the merely-string-prefixed key "ab". -/
theorem C5_witness :
    deleteDirectory noFail false 3 ["ab", "a/b"] "a" = some ⟨["ab"], [], 1⟩ ∧
      ("ab" : String) ∈ (DDResult.mk ["ab"] [] 1).store :=
  ⟨by decide,
    C5_frame noFail false 3 ["ab", "a/b"] "a" ⟨["ab"], [], 1⟩ "ab" (by decide)
      (by decide) (by decide) (by decide)⟩

/-- Claim C6: calling `delete_directory(p)` when nothing is listed under the
normalized prefix and no marker-shaped key for `p` exists is a no-op: zero
delete calls are issued, fuel 1 suffices (so the routine does not recurse),
the store is unchanged, and the call returns normally — whatever the failure
regime. -/
theorem C6_noop_on_empty (fails : String → Bool) (path : String) (store : List String)
    (h1 : listBlobs store (normSlash path) = [])
    (h2 : ∀ k ∈ store, rstripSlash k ≠ rstripSlash path) :
    deleteDirectory fails false 1 store path = some ⟨store, [], 0⟩ := by
  have hsw0 : sweep fails store ([] : List String) = ⟨store, [], 0⟩ := rfl
  have hfind : (listBlobs store (bareOf path)).find?
      (fun k => rstripSlash k == bareOf path) = none := by
    rw [List.find?_eq_none]
    intro x hx
    rw [bareOf_eq]
    simpa using h2 x (List.mem_filter.mp hx).1
  have hmk : markerPhase fails store (bareOf path) path
      = ⟨store, [.noMarkerFound path], 0⟩ := by
    unfold markerPhase
    rw [hfind]
  simp [deleteDirectory, ddStep, h1, hsw0, hmk]

/-- Claim C6, witness: with every delete raising (none is attempted anyway), a store
holding only the unrelated key "b" is untouched by `delete_directory("a")`. -/
theorem C6_witness :
    deleteDirectory allFail false 1 ["b"] "a" = some ⟨["b"], [], 0⟩ :=
  C6_noop_on_empty allFail "a" ["b"] (by decide) (by decide)

/-- Claim C7: on any store whose only key under directory "a" is the marker blob "a"
itself (no key starts with "a/"; other unrelated keys may exist),
`delete_directory("a")` with fuel 1 succeeds: the sweep deletes nothing, the
recursion guard does not fire, and the marker phase issues the single delete
call that removes exactly the key "a". -/
theorem C7_marker_only (store : List String)
    (h1 : "a" ∈ store)
    (h2 : ∀ k ∈ store, strStarts "a/" k = false) :
    deleteDirectory noFail false 1 store "a"
      = some ⟨store.filter (fun x => x != "a"), [], 1⟩ := by
  have hsnap : listBlobs store (normSlash "a") = [] := by
    unfold listBlobs
    rw [List.filter_eq_nil_iff]
    intro k hk
    have h3 := h2 k hk
    rw [show normSlash "a" = "a/" from by decide]
    simp [h3]
  have hsw0 : sweep noFail store ([] : List String) = ⟨store, [], 0⟩ := rfl
  have hfind : (listBlobs store (bareOf "a")).find?
      (fun k => rstripSlash k == bareOf "a") = some "a" := by
    apply find?_eq_some_unique
    · exact List.mem_filter.mpr ⟨h1, by decide⟩
    · decide
    · intro x hx hpx
      have hxs : x ∈ store := (List.mem_filter.mp hx).1
      have hrx : rstripSlash x = "a" := by
        have := hpx
        rw [show bareOf "a" = "a" from by decide] at this
        simpa using this
      rcases eq_or_slash_of_rstrip_eq hrx with he | he
      · exact he
      · rw [show ("a" ++ "/" : String) = "a/" from by decide, h2 x hxs] at he
        cases he
  have hmk : markerPhase noFail store (bareOf "a") "a"
      = ⟨store.filter (fun x => x != "a"), [.deletedMarker "a"], 1⟩ := by
    unfold markerPhase
    rw [hfind]
    rfl
  simp [deleteDirectory, ddStep, hsnap, hsw0, hmk]

/-- Claim C7, witness: on the store `{"a", "ab"}` the call removes exactly "a". -/
theorem C7_witness :
    deleteDirectory noFail false 1 ["a", "ab"] "a"
      = some ⟨List.filter (fun x => x != "a") ["a", "ab"], [], 1⟩ :=
  C7_marker_only ["a", "ab"] (by decide) (by decide)

/-- Claim C8, counterexample: for the input "a//" the code keeps the listing prefix
as "a//" (it only checks `endswith('/')`), which is not the input with exactly
one trailing separator. -/
theorem C8_counterexample : normSlash "a//" ≠ rstripSlash "a//" ++ "/" := by decide

/-- Claim C8, amended: the bare key always equals the input with all trailing
separators stripped, and the listing prefix equals the input with exactly one
trailing separator whenever the input ends with at most one separator; with
two or more trailing separators the code keeps them all (counterexample). -/
theorem C8_amended_normalization (p : String) :
    bareOf p = rstripSlash p ∧
      (trailSlashes p ≤ 1 → normSlash p = rstripSlash p ++ "/") := by
  refine ⟨bareOf_eq p, ?_⟩
  intro hle
  unfold normSlash
  split
  · next h =>
    have h2 : trailSlashes p = 1 := le_antisymm hle (one_le_trailSlashes h)
    apply String.ext
    rw [String.data_append, rstrip_decomp p, h2]
    rfl
  · next h =>
    rw [rstripSlash_of_not_endsSlash (by simpa using h)]

/-- Claim C8, witness for the amended theorem at "a/" (one trailing separator). -/
theorem C8_witness :
    bareOf "a/" = rstripSlash "a/" ∧ normSlash "a/" = rstripSlash "a/" ++ "/" :=
  ⟨(C8_amended_normalization "a/").1, (C8_amended_normalization "a/").2 (by decide)⟩

/-- Claim C9: on the store `{"a/b", "a/bc"}`, the sweep re-lists "a/b" and counts
two keys (raw string-prefix matching, not separator-bounded), so the real leaf
"a/b" is skipped as a "non-empty directory" while "a/bc" is deleted; after the
pass one entry remains, the recursion guard `len > 1` does not fire, no marker
matches, and "a/b" is left in the store — exactly one delete call happens. -/
theorem C9_string_prefix_shadow :
    deleteDirectory noFail true 10 ["a/b", "a/bc"] "a"
      = some ⟨["a/b"],
          [.deletingAll "a/", .skippingNonEmptyDir "a/b", .deleted "a/bc",
           .checkingMarker "a", .noMarkerFound "a"],
          1⟩ := by decide

/-- Claim C10: the recursive call omits `verbose`, so every pass invoked with
`verbose=False` — in particular every recursive pass — emits no log output;
and concretely, a verbose run on a nested store that does recurse logs only
only the messages of the outer pass: the recursive pass deletes "a/b" and "a/c" (calls
total 4) yet contributes no `deleted` events. -/
theorem C10_recursive_pass_silent :
    (∀ (fails : String → Bool) (fuel : Nat) (store : List String) (path : String)
        (r : DDResult),
        deleteDirectory fails false fuel store path = some r → r.log = [])
      ∧ deleteDirectory noFail true 5 ["a/b", "a/b/c", "a/c", "a/c/d"] "a"
          = some ⟨[],
              [.deletingAll "a/", .skippingNonEmptyDir "a/b", .deleted "a/b/c",
               .skippingNonEmptyDir "a/c", .deleted "a/c/d",
               .checkingMarker "a", .noMarkerFound "a"],
              4⟩ :=
  ⟨silent_of_not_verbose, by decide⟩

/-- Claim C10, witness: the silent-pass half applied to a concrete non-verbose run. -/
theorem C10_witness : DDResult.log ⟨["b"], [], 0⟩ = [] :=
  C10_recursive_pass_silent.1 noFail 1 ["b"] "z" ⟨["b"], [], 0⟩ (by decide)

end PyAzure
